import Mathlib

/-!
Verification of the format-resolution and request-handling layer of the
`backend/server.py` video-downloader service.

The Python code is shallowly embedded: yt-dlp format dictionaries become a
structure of optional fields, the normalization loop inside `get_video_info`
becomes a recursive function threading the `formats` accumulator and the
`seen_resolutions` set, Python exceptions (`KeyError` from `fmt['format_id']`,
`ValueError` from `int(...)`) become `Except String` errors, and CPython's
stable `list.sort(key=..., reverse=True)` becomes a stable descending
insertion sort on precomputed keys.
-/

deriving instance DecidableEq for Except

namespace VidSaver

/-- A raw yt-dlp rendition descriptor.  Every field models a dictionary key
that may be absent (`fmt.get(...)` in the source); `none` is an absent key. -/
structure RawFormat where
  format_id : Option String
  ext : Option String
  vcodec : Option String
  acodec : Option String
  resolution : Option String
  height : Option Int
  filesize : Option Int
  format_note : Option String
deriving DecidableEq

/-- The `VideoFormat` pydantic model of `server.py`. -/
structure VideoFormat where
  format_id : String
  ext : String
  resolution : Option String
  filesize : Option Int
  format_note : Option String
deriving DecidableEq

/-- The raw metadata dictionary returned by `ydl.extract_info`; the handler
reads every key with `info.get(...)`. -/
structure RawInfo where
  title : Option String
  thumbnail : Option String
  duration : Option Int
  id : Option String
  formats : Option (List RawFormat)
deriving DecidableEq

/-- The `VideoInfoResponse` pydantic model of `server.py`. -/
structure VideoInfoResponse where
  title : String
  thumbnail : String
  duration : Int
  formats : List VideoFormat
  video_id : String
deriving DecidableEq

/-- The `DownloadResponse` pydantic model of `server.py`. -/
structure DownloadResponse where
  download_id : String
  filename : String
  status : String
deriving DecidableEq

/-- Outcome of a FastAPI handler: a body, or an `HTTPException(status, detail)`. -/
inductive HandlerResult (α : Type) where
  | ok (value : α)
  | httpError (status : Nat) (detail : String)
deriving DecidableEq

/-- `f"{fmt.get('height', 'unknown')}p"` from `server.py` line 135. -/
def heightLabel (fmt : RawFormat) : String :=
  (match fmt.height with
   | some h => toString h
   | none => "unknown") ++ "p"

/-- `fmt.get('resolution') or f"{fmt.get('height', 'unknown')}p"`: Python `or`
falls through on a falsy value, i.e. on an absent key or an empty string. -/
def resolutionLabel (fmt : RawFormat) : String :=
  match fmt.resolution with
  | some r => if r = "" then heightLabel fmt else r
  | none => heightLabel fmt

/-- Whether `pat` is an initial run of `cs` (used to locate occurrences of a
`str.replace` pattern). -/
def matchesAt : List Char → List Char → Bool
  | [], _ => true
  | _ :: _, [] => false
  | p :: ps, c :: cs => p == c && matchesAt ps cs

/-- Fueled worker for `replaceChars`; fuel `≥ cs.length` makes the fuel branch
unreachable, and the fuel keeps the recursion structural so that the kernel
can evaluate it. -/
def replaceFuel (pat rep : List Char) : Nat → List Char → List Char
  | _, [] => []
  | 0, cs => cs
  | fuel + 1, c :: rest =>
    if pat ≠ [] ∧ matchesAt pat (c :: rest) = true then
      rep ++ replaceFuel pat rep fuel (rest.drop (pat.length - 1))
    else
      c :: replaceFuel pat rep fuel rest

/-- Python `str.replace(pat, rep)`: left-to-right, non-overlapping replacement
of every occurrence of `pat` (the source only calls it with non-empty `pat`). -/
def replaceChars (pat rep cs : List Char) : List Char :=
  replaceFuel pat rep cs.length cs

/-- Base-10 value of a digit string. -/
def digitsVal (cs : List Char) : Nat :=
  cs.foldl (fun a c => a * 10 + (c.toNat - 48)) 0

/-- Whether every character is a decimal digit. -/
def allDigits (cs : List Char) : Bool :=
  cs.all Char.isDigit

/-- Python `int(s)` on the relevant domain: an optional sign followed by a
non-empty run of decimal digits parses; anything else raises `ValueError`
(modelled as `none`).  The whitespace/underscore trivia of CPython's parser is
irrelevant to the labels this code builds and is not modelled. -/
def pyIntStr (cs : List Char) : Option Int :=
  match cs with
  | [] => none
  | c :: rest =>
    if c = '-' then
      if rest ≠ [] ∧ allDigits rest = true then some (-(digitsVal rest : Int)) else none
    else if c = '+' then
      if rest ≠ [] ∧ allDigits rest = true then some ((digitsVal rest : Int)) else none
    else if allDigits (c :: rest) = true then some ((digitsVal (c :: rest) : Int)) else none

/-- The pattern `"unknown"` of `str.replace('unknown', '0')` as a char list. -/
def unknownPat : List Char := ['u', 'n', 'k', 'n', 'o', 'w', 'n']

/-- `x.resolution.replace('p', '').replace('unknown', '0')` from line 150. -/
def cleanLabel (cs : List Char) : List Char :=
  replaceChars unknownPat ['0'] (replaceChars ['p'] [] cs)

/-- The sort key of `server.py` line 150:
`int(x.resolution.replace('p', '').replace('unknown', '0')) if x.resolution else 0`.
A present, non-empty label whose cleaned form is not an integer literal makes
`int` raise `ValueError`. -/
def rankKey (f : VideoFormat) : Except String Int :=
  match f.resolution with
  | none => Except.ok 0
  | some r =>
    if r = "" then Except.ok 0
    else
      match pyIntStr (cleanLabel r.data) with
      | some n => Except.ok n
      | none => Except.error "ValueError"

/-- Total view of the rank key (errors collapsed to 0), used only to state
properties of runs on which no key computation failed. -/
def rankD (f : VideoFormat) : Int :=
  match rankKey f with
  | Except.ok k => k
  | Except.error _ => 0

/-- The `vcodec != 'none'` video test of line 134 (an absent key also passes,
exactly as `fmt.get('vcodec') != 'none'` does). -/
def hasVideo (f : RawFormat) : Bool :=
  !(f.vcodec == some "none")

/-- The `VideoFormat(...)` constructor call of lines 140-146. -/
def builtFormat (fmt : RawFormat) (fid fext : String) : VideoFormat :=
  { format_id := fid, ext := fext,
    resolution := some (resolutionLabel fmt),
    filesize := fmt.filesize,
    format_note := some (fmt.format_note.getD "") }

/-- The filtering/deduplication loop of `get_video_info` (lines 130-147):
threads the `formats` accumulator and the `seen_resolutions` set; reading
`fmt['format_id']` or `fmt['ext']` on an absent key raises `KeyError`. -/
def buildFormats : List RawFormat → List VideoFormat → List String →
    Except String (List VideoFormat)
  | [], formats, _ => Except.ok formats
  | fmt :: rest, formats, seen =>
    if fmt.vcodec ≠ some "none" then
      if resolutionLabel fmt ∉ seen ∨ fmt.acodec ≠ some "none" then
        match fmt.format_id, fmt.ext with
        | some fid, some fext =>
          buildFormats rest (formats ++ [builtFormat fmt fid fext])
            (List.insert (resolutionLabel fmt) seen)
        | _, _ => Except.error "KeyError"
      else buildFormats rest formats seen
    else buildFormats rest formats seen

/-- CPython's `list.sort(key=...)` evaluates the key of every element, in list
order, before comparing; the first key that raises aborts the sort. -/
def attachKeys : List VideoFormat → Except String (List (Int × VideoFormat))
  | [] => Except.ok []
  | f :: rest =>
    match rankKey f with
    | Except.ok k => (attachKeys rest).map (fun l => (k, f) :: l)
    | Except.error e => Except.error e

/-- Insert into a descending-sorted list, after every element with a key `≥`
the new key — the placement a stable descending sort gives a later element. -/
def insertDesc (x : Int × VideoFormat) : List (Int × VideoFormat) → List (Int × VideoFormat)
  | [] => [x]
  | y :: ys => if x.1 ≤ y.1 then y :: insertDesc x ys else x :: y :: ys

/-- Stable descending sort on precomputed keys, the semantics of
`formats.sort(key=..., reverse=True)`. -/
def sortDesc (l : List (Int × VideoFormat)) : List (Int × VideoFormat) :=
  l.foldl (fun acc x => insertDesc x acc) []

/-- The whole normalization of `get_video_info`: filter/dedup loop, key
computation, stable descending sort, truncation to the top 10
(`formats[:10]`). -/
def normalize (raw : List RawFormat) : Except String (List VideoFormat) :=
  match buildFormats raw [] [] with
  | Except.error e => Except.error e
  | Except.ok formats =>
    match attachKeys formats with
    | Except.error e => Except.error e
    | Except.ok keyed => Except.ok (((sortDesc keyed).map Prod.snd).take 10)

/-- `get_video_info_sync`: wraps any extractor failure as
`Exception(f"Failed to extract video info: {str(e)}")`. -/
def get_video_info_sync (extract : Except String RawInfo) : Except String RawInfo :=
  match extract with
  | Except.ok info => Except.ok info
  | Except.error e => Except.error ("Failed to extract video info: " ++ e)

/-- The `/api/video/info` handler: runs the extractor (its outcome is the
`extract` argument), normalizes the formats, and maps any raised exception to
`HTTPException(status_code=400, detail=str(e))`. -/
def get_video_info (extract : Except String RawInfo) : HandlerResult VideoInfoResponse :=
  match get_video_info_sync extract with
  | Except.error e => HandlerResult.httpError 400 e
  | Except.ok info =>
    match normalize (info.formats.getD []) with
    | Except.error e => HandlerResult.httpError 400 e
    | Except.ok formats =>
      HandlerResult.ok
        { title := info.title.getD "Unknown"
          thumbnail := info.thumbnail.getD ""
          duration := info.duration.getD 0
          formats := formats
          video_id := info.id.getD "" }

/-- `Path(s).name`: the part of the path after the last slash. -/
def pathName (s : String) : String :=
  String.mk ((s.data.reverse.takeWhile (fun c => c ≠ '/')).reverse)

/-- `str(DOWNLOADS_DIR / f"{download_id}.%(ext)s")` from `download_video`
(line 186), with the downloads directory abstracted as `dir`. -/
def output_path (dir download_id : String) : String :=
  dir ++ "/" ++ download_id ++ ".%(ext)s"

/-- `download_video_sync`: runs the blocking download (its outcome is the
`outcome` argument) and, on success, returns `output_path` — the template
string itself, not the path of the file yt-dlp actually wrote; a failure is
re-raised as `Exception(f"Failed to download video: {str(e)}")`. -/
def download_video_sync (outcome : Except String Unit) (op : String) : Except String String :=
  match outcome with
  | Except.ok _ => Except.ok op
  | Except.error e => Except.error ("Failed to download video: " ++ e)

/-- The `/api/video/download` handler (lines 181-208): builds the output
template from the generated `download_id`, runs the download, and takes
`Path(downloaded_file).name` as the response filename (falling back to
`f"{download_id}.mp4"` only when the returned string is falsy). -/
def download_video (dir download_id : String) (outcome : Except String Unit) :
    HandlerResult DownloadResponse :=
  match download_video_sync outcome (output_path dir download_id) with
  | Except.ok downloaded_file =>
    HandlerResult.ok
      { download_id := download_id
        filename := if downloaded_file = "" then download_id ++ ".mp4"
                    else pathName downloaded_file
        status := "completed" }
  | Except.error e => HandlerResult.httpError 400 e

/-- Modelled from the spec: the extraction capability, invoked in download
mode, "substitutes its own chosen extension into the template", so for the
template `<dir>/<download_id>.%(ext)s` the file that lands on disk is named
`<download_id>.<ext>`.  This materialization effect happens inside yt-dlp,
outside this repository's code. -/
def materializedName (download_id chosenExt : String) : String :=
  download_id ++ "." ++ chosenExt

/-- Split a string on `/` (how `Path` tokenizes a path-like string into
segments; empty segments are ignored later by resolution). -/
def splitSlashAux (cs : List Char) (cur : List Char) : List String :=
  match cs with
  | [] => [String.mk cur.reverse]
  | c :: rest =>
    if c = '/' then String.mk cur.reverse :: splitSlashAux rest []
    else splitSlashAux rest (c :: cur)

/-- Segments of a path-like string. -/
def splitSlash (s : String) : List String :=
  splitSlashAux s.data []

/-- `DOWNLOADS_DIR = ROOT_DIR / 'downloads'` as a segment list (`ROOT_DIR` is
the directory containing `server.py`). -/
def downloadsDirSegs : List String := ["backend", "downloads"]

/-- `base / filename` for `pathlib.Path`: an absolute right operand (leading
slash) replaces the base; otherwise the segments are appended. -/
def joinPath (base : List String) (filename : String) : List String :=
  if filename.data.head? = some '/' then splitSlash filename
  else base ++ splitSlash filename

/-- How the operating system resolves a path when the file is opened: `..`
pops a segment, `.` and empty segments are ignored. -/
def normalizePath (p : List String) : List String :=
  p.foldl
    (fun acc seg =>
      if seg = ".." then acc.dropLast
      else if seg = "." ∨ seg = "" then acc
      else acc ++ [seg])
    []

/-- Outcome of the `/api/video/file/{filename}` handler: 404, or a
`FileResponse` streaming the bytes at `path`. -/
inductive FileResult where
  | notFound
  | serveFile (path : List String)
deriving DecidableEq

/-- The `get_video_file` handler (lines 211-222): joins the downloads
directory with the request's `filename`, answers 404 when nothing exists at
the resolved path, and otherwise streams that file.  `fileAt` is the
filesystem: which resolved paths hold a file. -/
def get_video_file (fileAt : List String → Bool) (filename : String) : FileResult :=
  if fileAt (normalizePath (joinPath downloadsDirSegs filename)) then
    FileResult.serveFile (joinPath downloadsDirSegs filename)
  else FileResult.notFound

/-- Whether the sort-key computation succeeds on resolution label `r`: the
label is empty (short-circuited to 0) or its cleaned form is an integer
literal. -/
def rankParses (r : String) : Bool :=
  r == "" || (pyIntStr (cleanLabel r.data)).isSome

/-- A well-formed baseline descriptor used by concrete test inputs: h264
video, no audio, 720p label. -/
def fmtBase : RawFormat :=
  { format_id := some "f1", ext := some "mp4", vcodec := some "h264",
    acodec := some "none", resolution := some "720p", height := none,
    filesize := none, format_note := none }

/-! ### Lemmas about the stable descending sort -/

theorem insertDesc_perm (x : Int × VideoFormat) (l : List (Int × VideoFormat)) :
    List.Perm (insertDesc x l) (x :: l) := by
  induction l with
  | nil => simp [insertDesc]
  | cons y ys ih =>
    by_cases h : x.1 ≤ y.1
    · simp only [insertDesc, if_pos h]
      exact (ih.cons y).trans (List.Perm.swap x y ys)
    · simp [insertDesc, if_neg h]

theorem sortDesc_aux_perm (l : List (Int × VideoFormat)) :
    ∀ acc, List.Perm (l.foldl (fun acc x => insertDesc x acc) acc) (acc ++ l) := by
  induction l with
  | nil => intro acc; simp
  | cons x xs ih =>
    intro acc
    simp only [List.foldl_cons]
    exact ((ih (insertDesc x acc)).trans
      (((insertDesc_perm x acc).append_right xs).trans List.perm_middle.symm))

theorem sortDesc_perm (l : List (Int × VideoFormat)) : List.Perm (sortDesc l) l := by
  simpa [sortDesc] using sortDesc_aux_perm l []

theorem insertDesc_sorted (x : Int × VideoFormat) (l : List (Int × VideoFormat))
    (h : List.Pairwise (fun a b => b.1 ≤ a.1) l) :
    List.Pairwise (fun a b => b.1 ≤ a.1) (insertDesc x l) := by
  induction l with
  | nil => simp [insertDesc]
  | cons y ys ih =>
    rcases List.pairwise_cons.mp h with ⟨hy, hys⟩
    by_cases hx : x.1 ≤ y.1
    · simp only [insertDesc, if_pos hx]
      refine List.pairwise_cons.mpr ⟨?_, ih hys⟩
      intro b hb
      rcases List.mem_cons.mp ((insertDesc_perm x ys).mem_iff.mp hb) with rfl | hmem
      · exact hx
      · exact hy b hmem
    · simp only [insertDesc, if_neg hx]
      have hyx : y.1 ≤ x.1 := le_of_not_le hx
      refine List.pairwise_cons.mpr ⟨?_, h⟩
      intro b hb
      rcases List.mem_cons.mp hb with rfl | hmem
      · exact hyx
      · exact le_trans (hy b hmem) hyx

theorem sortDesc_aux_sorted (l : List (Int × VideoFormat)) :
    ∀ acc, List.Pairwise (fun a b => b.1 ≤ a.1) acc →
    List.Pairwise (fun a b => b.1 ≤ a.1) (l.foldl (fun acc x => insertDesc x acc) acc) := by
  induction l with
  | nil => intro acc h; exact h
  | cons x xs ih =>
    intro acc h
    exact ih (insertDesc x acc) (insertDesc_sorted x acc h)

theorem sortDesc_sorted (l : List (Int × VideoFormat)) :
    List.Pairwise (fun a b => b.1 ≤ a.1) (sortDesc l) :=
  sortDesc_aux_sorted l [] (List.Pairwise.nil)

theorem filter_insertDesc (k : Int) (x : Int × VideoFormat) (acc : List (Int × VideoFormat))
    (h : List.Pairwise (fun a b => b.1 ≤ a.1) acc) :
    (insertDesc x acc).filter (fun q => q.1 == k) =
      if x.1 = k then acc.filter (fun q => q.1 == k) ++ [x]
      else acc.filter (fun q => q.1 == k) := by
  induction acc with
  | nil =>
    by_cases hx : x.1 = k
    · simp [insertDesc, List.filter, hx]
    · simp only [insertDesc, List.filter, beq_eq_false_iff_ne.mpr hx, if_neg hx]
  | cons y ys ih =>
    rcases List.pairwise_cons.mp h with ⟨hy, hys⟩
    by_cases hle : x.1 ≤ y.1
    · simp only [insertDesc, if_pos hle]
      by_cases hyk : y.1 = k
      · by_cases hxk : x.1 = k <;>
          simp [List.filter_cons, hyk, hxk, ih hys]
      · by_cases hxk : x.1 = k <;>
          simp [List.filter_cons, hyk, hxk, ih hys]
    · have hlt : y.1 < x.1 := lt_of_not_le hle
      simp only [insertDesc, if_neg hle]
      by_cases hxk : x.1 = k
      · have hnone : (y :: ys).filter (fun q => q.1 == k) = [] := by
          refine List.filter_eq_nil_iff.mpr ?_
          intro b hb
          have hble : b.1 ≤ y.1 := by
            rcases List.mem_cons.mp hb with rfl | hmem
            · exact le_rfl
            · exact hy b hmem
          have : b.1 ≠ k := by omega
          simpa using this
        simp [List.filter_cons, hxk, hnone]
      · simp [List.filter_cons, hxk]

theorem filter_sortDesc_aux (k : Int) (l : List (Int × VideoFormat)) :
    ∀ acc, List.Pairwise (fun a b => b.1 ≤ a.1) acc →
    (l.foldl (fun acc x => insertDesc x acc) acc).filter (fun q => q.1 == k) =
      acc.filter (fun q => q.1 == k) ++ l.filter (fun q => q.1 == k) := by
  induction l with
  | nil => intro acc h; simp
  | cons x xs ih =>
    intro acc h
    simp only [List.foldl_cons]
    rw [ih (insertDesc x acc) (insertDesc_sorted x acc h),
        filter_insertDesc k x acc h]
    by_cases hxk : x.1 = k <;> simp [List.filter_cons, hxk]

/-- Stability of the sort: for each key value, the entries carrying that key
come out in exactly their input order. -/
theorem filter_sortDesc (k : Int) (l : List (Int × VideoFormat)) :
    (sortDesc l).filter (fun q => q.1 == k) = l.filter (fun q => q.1 == k) := by
  simpa [sortDesc] using filter_sortDesc_aux k l [] (List.Pairwise.nil)

/-! ### Lemmas about key attachment -/

theorem attachKeys_map_snd :
    ∀ {fs : List VideoFormat} {keyed : List (Int × VideoFormat)},
    attachKeys fs = Except.ok keyed → keyed.map Prod.snd = fs := by
  intro fs
  induction fs with
  | nil => intro keyed h; cases h; rfl
  | cons f rest ih =>
    intro keyed h
    cases hk : rankKey f with
    | error e => simp [attachKeys, hk] at h
    | ok k =>
      cases hr : attachKeys rest with
      | error e => simp [attachKeys, hk, hr, Except.map] at h
      | ok tl =>
        simp only [attachKeys, hk, hr, Except.map] at h
        cases h
        simp [ih hr]

theorem attachKeys_mem_rank :
    ∀ {fs : List VideoFormat} {keyed : List (Int × VideoFormat)},
    attachKeys fs = Except.ok keyed →
    ∀ p ∈ keyed, rankKey p.2 = Except.ok p.1 := by
  intro fs
  induction fs with
  | nil => intro keyed h; cases h; intro p hp; cases hp
  | cons f rest ih =>
    intro keyed h
    cases hk : rankKey f with
    | error e => simp [attachKeys, hk] at h
    | ok k =>
      cases hr : attachKeys rest with
      | error e => simp [attachKeys, hk, hr, Except.map] at h
      | ok tl =>
        simp only [attachKeys, hk, hr, Except.map] at h
        cases h
        intro p hp
        rcases List.mem_cons.mp hp with rfl | hmem
        · exact hk
        · exact ih hr p hmem

theorem attachKeys_total :
    ∀ {fs : List VideoFormat},
    (∀ f ∈ fs, ∃ k, rankKey f = Except.ok k) →
    ∃ keyed, attachKeys fs = Except.ok keyed := by
  intro fs
  induction fs with
  | nil => intro _; exact ⟨[], rfl⟩
  | cons f rest ih =>
    intro h
    rcases h f (List.mem_cons_self f rest) with ⟨k, hk⟩
    rcases ih (fun g hg => h g (List.mem_cons_of_mem f hg)) with ⟨tl, htl⟩
    exact ⟨(k, f) :: tl, by simp [attachKeys, hk, htl, Except.map]⟩

/-! ### Lemmas about the filtering/deduplication loop -/

theorem buildFormats_length :
    ∀ (l : List RawFormat) (fs : List VideoFormat) (seen : List String)
      (out : List VideoFormat),
    buildFormats l fs seen = Except.ok out →
    out.length ≤ fs.length + (l.filter hasVideo).length := by
  intro l
  induction l with
  | nil =>
    intro fs seen out h
    cases h
    simp
  | cons fmt rest ih =>
    intro fs seen out h
    by_cases hv : fmt.vcodec ≠ some "none"
    · have hfv : hasVideo fmt = true := by
        simp [hasVideo, hv]
      rw [buildFormats, if_pos hv] at h
      by_cases hc : resolutionLabel fmt ∉ seen ∨ fmt.acodec ≠ some "none"
      · rw [if_pos hc] at h
        cases hid : fmt.format_id with
        | none => rw [hid] at h; cases hext : fmt.ext <;> rw [hext] at h <;> cases h
        | some fid =>
          cases hext : fmt.ext with
          | none => rw [hid, hext] at h; cases h
          | some fext =>
            rw [hid, hext] at h
            have := ih _ _ _ h
            simp only [List.length_append, List.length_cons, List.length_nil] at this
            simp [List.filter_cons, hfv]
            omega
      · rw [if_neg hc] at h
        have := ih _ _ _ h
        simp [List.filter_cons, hfv]
        omega
    · have hfv : hasVideo fmt = false := by
        simp only [hasVideo, Bool.not_eq_true']
        simp only [ne_eq, not_not] at hv
        simp [hv]
      rw [buildFormats, if_neg hv] at h
      have := ih _ _ _ h
      simpa [List.filter_cons, hfv] using this

theorem buildFormats_labels_nodup :
    ∀ (l : List RawFormat) (fs : List VideoFormat) (seen : List String)
      (out : List VideoFormat),
    (∀ f ∈ l, f.acodec = some "none") →
    (∀ v ∈ fs, ∃ r, v.resolution = some r ∧ r ∈ seen) →
    List.Pairwise (fun a b : VideoFormat => a.resolution ≠ b.resolution) fs →
    buildFormats l fs seen = Except.ok out →
    List.Pairwise (fun a b : VideoFormat => a.resolution ≠ b.resolution) out := by
  intro l
  induction l with
  | nil =>
    intro fs seen out _ _ hpw h
    cases h
    exact hpw
  | cons fmt rest ih =>
    intro fs seen out haud hinv hpw h
    have haudf : fmt.acodec = some "none" := haud fmt (List.mem_cons_self fmt rest)
    have haudr : ∀ f ∈ rest, f.acodec = some "none" :=
      fun f hf => haud f (List.mem_cons_of_mem fmt hf)
    by_cases hv : fmt.vcodec ≠ some "none"
    · rw [buildFormats, if_pos hv] at h
      by_cases hmem : resolutionLabel fmt ∈ seen
      · have hc : ¬(resolutionLabel fmt ∉ seen ∨ fmt.acodec ≠ some "none") := by
          simp [hmem, haudf]
        rw [if_neg hc] at h
        exact ih _ _ _ haudr hinv hpw h
      · have hc : resolutionLabel fmt ∉ seen ∨ fmt.acodec ≠ some "none" := Or.inl hmem
        rw [if_pos hc] at h
        cases hid : fmt.format_id with
        | none => rw [hid] at h; cases hext : fmt.ext <;> rw [hext] at h <;> cases h
        | some fid =>
          cases hext : fmt.ext with
          | none => rw [hid, hext] at h; cases h
          | some fext =>
            rw [hid, hext] at h
            refine ih _ _ _ haudr ?_ ?_ h
            · intro v hvmem
              rcases List.mem_append.mp hvmem with hold | hnew
              · rcases hinv v hold with ⟨r, hr, hrs⟩
                exact ⟨r, hr, List.mem_insert_iff.mpr (Or.inr hrs)⟩
              · rcases List.mem_singleton.mp hnew with rfl
                exact ⟨resolutionLabel fmt, rfl, List.mem_insert_iff.mpr (Or.inl rfl)⟩
            · refine List.pairwise_append.mpr ⟨hpw, List.pairwise_singleton _ _, ?_⟩
              intro a ha b hb
              rcases List.mem_singleton.mp hb with rfl
              rcases hinv a ha with ⟨r, hr, hrs⟩
              simp only [hr]
              intro hcontra
              have : r = resolutionLabel fmt := Option.some.inj hcontra
              exact hmem (this ▸ hrs)
    · rw [buildFormats, if_neg hv] at h
      exact ih _ _ _ haudr hinv hpw h

theorem buildFormats_total :
    ∀ (l : List RawFormat) (fs : List VideoFormat) (seen : List String),
    (∀ f ∈ l, f.vcodec ≠ some "none" →
      f.format_id.isSome = true ∧ f.ext.isSome = true) →
    ∃ out, buildFormats l fs seen = Except.ok out := by
  intro l
  induction l with
  | nil => intro fs seen _; exact ⟨fs, rfl⟩
  | cons fmt rest ih =>
    intro fs seen hwf
    have hwfr : ∀ f ∈ rest, f.vcodec ≠ some "none" →
        f.format_id.isSome = true ∧ f.ext.isSome = true :=
      fun f hf => hwf f (List.mem_cons_of_mem fmt hf)
    by_cases hv : fmt.vcodec ≠ some "none"
    · by_cases hc : resolutionLabel fmt ∉ seen ∨ fmt.acodec ≠ some "none"
      · rcases hwf fmt (List.mem_cons_self fmt rest) hv with ⟨hid, hext⟩
        rcases Option.isSome_iff_exists.mp hid with ⟨fid, hfid⟩
        rcases Option.isSome_iff_exists.mp hext with ⟨fext, hfext⟩
        rcases ih (fs ++ [builtFormat fmt fid fext])
          (List.insert (resolutionLabel fmt) seen) hwfr with ⟨out, hout⟩
        refine ⟨out, ?_⟩
        rw [buildFormats, if_pos hv, if_pos hc, hfid, hfext]
        exact hout
      · rcases ih fs seen hwfr with ⟨out, hout⟩
        refine ⟨out, ?_⟩
        rw [buildFormats, if_pos hv, if_neg hc]
        exact hout
    · rcases ih fs seen hwfr with ⟨out, hout⟩
      refine ⟨out, ?_⟩
      rw [buildFormats, if_neg hv]
      exact hout

theorem buildFormats_resolution_from :
    ∀ (l : List RawFormat) (fs : List VideoFormat) (seen : List String)
      (out : List VideoFormat),
    buildFormats l fs seen = Except.ok out →
    ∀ v ∈ out, v ∈ fs ∨
      ∃ f ∈ l, f.vcodec ≠ some "none" ∧ v.resolution = some (resolutionLabel f) := by
  intro l
  induction l with
  | nil =>
    intro fs seen out h v hv
    cases h
    exact Or.inl hv
  | cons fmt rest ih =>
    intro fs seen out h v hv
    by_cases hvc : fmt.vcodec ≠ some "none"
    · rw [buildFormats, if_pos hvc] at h
      by_cases hc : resolutionLabel fmt ∉ seen ∨ fmt.acodec ≠ some "none"
      · rw [if_pos hc] at h
        cases hid : fmt.format_id with
        | none => rw [hid] at h; cases hext : fmt.ext <;> rw [hext] at h <;> cases h
        | some fid =>
          cases hext : fmt.ext with
          | none => rw [hid, hext] at h; cases h
          | some fext =>
            rw [hid, hext] at h
            rcases ih _ _ _ h v hv with hmem | ⟨f, hf, hfv, hres⟩
            · rcases List.mem_append.mp hmem with hold | hnew
              · exact Or.inl hold
              · rcases List.mem_singleton.mp hnew with rfl
                exact Or.inr ⟨fmt, List.mem_cons_self fmt rest, hvc, rfl⟩
            · exact Or.inr ⟨f, List.mem_cons_of_mem fmt hf, hfv, hres⟩
      · rw [if_neg hc] at h
        rcases ih _ _ _ h v hv with hmem | ⟨f, hf, hfv, hres⟩
        · exact Or.inl hmem
        · exact Or.inr ⟨f, List.mem_cons_of_mem fmt hf, hfv, hres⟩
    · rw [buildFormats, if_neg hvc] at h
      rcases ih _ _ _ h v hv with hmem | ⟨f, hf, hfv, hres⟩
      · exact Or.inl hmem
      · exact Or.inr ⟨f, List.mem_cons_of_mem fmt hf, hfv, hres⟩

/-! ### Lemmas about the label cleaning and integer parse -/

theorem replaceFuel_single (a : Char) :
    ∀ (fuel : Nat) (cs : List Char), cs.length ≤ fuel →
    replaceFuel [a] [] fuel cs = cs.filter (fun c => c != a) := by
  intro fuel
  induction fuel with
  | zero =>
    intro cs h
    cases cs with
    | nil => rfl
    | cons c rest => simp at h
  | succ n ih =>
    intro cs h
    cases cs with
    | nil => rfl
    | cons c rest =>
      simp only [List.length_cons, Nat.succ_le_succ_iff] at h
      by_cases hac : a = c
      · have hcond : ([a] : List Char) ≠ [] ∧ matchesAt [a] (c :: rest) = true := by
          subst hac
          simp [matchesAt]
        rw [replaceFuel, if_pos hcond]
        simp only [List.length_cons, List.length_nil, Nat.add_sub_cancel, List.drop_zero,
          List.nil_append]
        rw [ih rest h]
        subst hac
        simp [List.filter_cons]
      · have hcond : ¬(([a] : List Char) ≠ [] ∧ matchesAt [a] (c :: rest) = true) := by
          simp [matchesAt, hac]
        rw [replaceFuel, if_neg hcond]
        rw [ih rest h]
        have : (c != a) = true := by
          simp [bne_iff_ne]
          exact fun hh => hac hh.symm
        simp [List.filter_cons, this]

theorem replaceChars_single (a : Char) (cs : List Char) :
    replaceChars [a] [] cs = cs.filter (fun c => c != a) :=
  replaceFuel_single a cs.length cs le_rfl

theorem replaceFuel_nomatch (p0 : Char) (pt rep : List Char) :
    ∀ (fuel : Nat) (cs : List Char), cs.length ≤ fuel → p0 ∉ cs →
    replaceFuel (p0 :: pt) rep fuel cs = cs := by
  intro fuel
  induction fuel with
  | zero =>
    intro cs h _
    cases cs with
    | nil => rfl
    | cons c rest => simp at h
  | succ n ih =>
    intro cs h hmem
    cases cs with
    | nil => rfl
    | cons c rest =>
      simp only [List.length_cons, Nat.succ_le_succ_iff] at h
      have hpc : p0 ≠ c := fun hh => hmem (hh ▸ List.mem_cons_self c rest)
      have hcond : ¬((p0 :: pt : List Char) ≠ [] ∧ matchesAt (p0 :: pt) (c :: rest) = true) := by
        simp [matchesAt, hpc]
      rw [replaceFuel, if_neg hcond]
      rw [ih rest h (fun hh => hmem (List.mem_cons_of_mem c hh))]

theorem replaceChars_nomatch (p0 : Char) (pt rep : List Char) (cs : List Char)
    (hmem : p0 ∉ cs) : replaceChars (p0 :: pt) rep cs = cs :=
  replaceFuel_nomatch p0 pt rep cs.length cs le_rfl hmem

theorem digit_ne_of_all (cs : List Char) (h : allDigits cs = true) (c : Char)
    (hc : c.isDigit = false) : c ∉ cs := by
  intro hmem
  have := List.all_eq_true.mp h c hmem
  rw [hc] at this
  cases this

theorem pyIntStr_digits (cs : List Char) (h1 : cs ≠ []) (h2 : allDigits cs = true) :
    pyIntStr cs = some ((digitsVal cs : Int)) := by
  cases cs with
  | nil => exact absurd rfl h1
  | cons c rest =>
    have hc : c.isDigit = true := List.all_eq_true.mp h2 c (List.mem_cons_self c rest)
    have hcm : ¬(c = '-') := by
      intro hh; rw [hh] at hc; exact absurd hc (by decide)
    have hcp : ¬(c = '+') := by
      intro hh; rw [hh] at hc; exact absurd hc (by decide)
    simp [pyIntStr, hcm, hcp, h2]

theorem cleanLabel_digits_p (ds : List Char) (h2 : allDigits ds = true) :
    cleanLabel (ds ++ ['p']) = ds := by
  have hfilter : (ds ++ ['p']).filter (fun c => c != 'p') = ds := by
    rw [List.filter_append]
    have h1 : ds.filter (fun c => c != 'p') = ds := by
      refine List.filter_eq_self.mpr ?_
      intro c hcm
      have hcd : c.isDigit = true := List.all_eq_true.mp h2 c hcm
      simp only [bne_iff_ne, ne_eq, decide_eq_true_eq]
      intro hh; rw [hh] at hcd; exact absurd hcd (by decide)
    rw [h1]
    simp
  have hu : 'u' ∉ ds :=
    digit_ne_of_all ds h2 'u' (by decide)
  show replaceChars unknownPat ['0'] (replaceChars ['p'] [] (ds ++ ['p'])) = ds
  rw [replaceChars_single, hfilter]
  exact replaceChars_nomatch 'u' ['n', 'k', 'n', 'o', 'w', 'n'] ['0'] ds hu

theorem rankKey_digits (f : VideoFormat) (ds : List Char) (h1 : ds ≠ [])
    (h2 : allDigits ds = true)
    (hres : f.resolution = some (String.mk (ds ++ ['p']))) :
    rankKey f = Except.ok ((digitsVal ds : Int)) := by
  have hne : String.mk (ds ++ ['p']) ≠ "" := by
    intro hh
    have := congrArg String.data hh
    simp at this
  simp only [rankKey, hres]
  rw [if_neg hne]
  rw [cleanLabel_digits_p ds h2, pyIntStr_digits ds h1 h2]

theorem rankKey_ok_of_parses (v : VideoFormat) (r : String)
    (hres : v.resolution = some r) (h : rankParses r = true) :
    ∃ k, rankKey v = Except.ok k := by
  simp only [rankKey, hres]
  by_cases hre : r = ""
  · rw [if_pos hre]
    exact ⟨0, rfl⟩
  · rw [if_neg hre]
    have : (pyIntStr (cleanLabel r.data)).isSome = true := by
      simp only [rankParses] at h
      rcases Bool.or_eq_true_iff.mp h with hh | hh
      · exact absurd (eq_of_beq hh) hre
      · exact hh
    rcases Option.isSome_iff_exists.mp this with ⟨n, hn⟩
    rw [hn]
    exact ⟨n, rfl⟩

/-! ### Glue lemmas -/

theorem normalize_parts (raw : List RawFormat) (out : List VideoFormat)
    (h : normalize raw = Except.ok out) :
    ∃ fs keyed, buildFormats raw [] [] = Except.ok fs ∧
      attachKeys fs = Except.ok keyed ∧
      out = ((sortDesc keyed).map Prod.snd).take 10 := by
  cases hb : buildFormats raw [] [] with
  | error e => simp only [normalize, hb] at h; exact Except.noConfusion h
  | ok fs =>
    cases ha : attachKeys fs with
    | error e => simp only [normalize, hb, ha] at h; exact Except.noConfusion h
    | ok keyed =>
      simp only [normalize, hb, ha] at h
      exact ⟨fs, keyed, rfl, ha, (Except.ok.inj h).symm⟩

theorem filter_map_snd (k : Int) :
    ∀ (l : List (Int × VideoFormat)),
    (∀ p ∈ l, rankD p.2 = p.1) →
    (l.map Prod.snd).filter (fun f => rankD f == k) =
      (l.filter (fun q => q.1 == k)).map Prod.snd := by
  intro l
  induction l with
  | nil => intro _; rfl
  | cons q rest ih =>
    intro h
    have hq : rankD q.2 = q.1 := h q (List.mem_cons_self q rest)
    have hrest : ∀ p ∈ rest, rankD p.2 = p.1 :=
      fun p hp => h p (List.mem_cons_of_mem q hp)
    simp only [List.map_cons, List.filter_cons]
    rw [hq]
    by_cases hk : q.1 = k
    · simp [hk, ih hrest]
    · simp [beq_eq_false_iff_ne.mpr hk, ih hrest]

theorem normalizePath_aux_no_dotdot :
    ∀ (segs : List String) (acc : List String), ".." ∉ segs →
    ∃ rest, segs.foldl
      (fun acc seg =>
        if seg = ".." then acc.dropLast
        else if seg = "." ∨ seg = "" then acc else acc ++ [seg]) acc = acc ++ rest := by
  intro segs
  induction segs with
  | nil => intro acc _; exact ⟨[], by simp⟩
  | cons s ss ih =>
    intro acc hmem
    have hs : ¬(s = "..") := fun hh => hmem (hh ▸ List.mem_cons_self s ss)
    have hss : ".." ∉ ss := fun hh => hmem (List.mem_cons_of_mem s hh)
    simp only [List.foldl_cons, if_neg hs]
    by_cases hdot : s = "." ∨ s = ""
    · rw [if_pos hdot]
      exact ih acc hss
    · rw [if_neg hdot]
      rcases ih (acc ++ [s]) hss with ⟨rest, hrest⟩
      refine ⟨s :: rest, ?_⟩
      rw [hrest, List.append_assoc]
      rfl

theorem normalizePath_down_append (segs : List String) (hdot : ".." ∉ segs) :
    ∃ rest, normalizePath (downloadsDirSegs ++ segs) = downloadsDirSegs ++ rest := by
  rw [normalizePath, List.foldl_append]
  have h0 : List.foldl
      (fun acc seg =>
        if seg = ".." then acc.dropLast
        else if seg = "." ∨ seg = "" then acc else acc ++ [seg]) [] downloadsDirSegs
      = downloadsDirSegs := by decide
  rw [h0]
  exact normalizePath_aux_no_dotdot segs downloadsDirSegs hdot

/-! ### Claim theorems -/

/-- C1, counterexample: the claimed invariant "no two entries share a
resolution label" fails — for two 720p descriptors that both carry audio, the
handler appends the second instead of deduplicating, so the output holds two
entries with the label `720p`. -/
theorem c1_duplicate_labels_cex :
    normalize [{ fmtBase with acodec := some "aac" },
               { fmtBase with format_id := some "f2", acodec := some "aac" }] =
      Except.ok [{ format_id := "f1", ext := "mp4", resolution := some "720p",
                   filesize := none, format_note := some "" },
                 { format_id := "f2", ext := "mp4", resolution := some "720p",
                   filesize := none, format_note := some "" }] ∧
    ¬ List.Pairwise (fun a b : VideoFormat => a.resolution ≠ b.resolution)
        [{ format_id := "f1", ext := "mp4", resolution := some "720p",
           filesize := none, format_note := some "" },
         { format_id := "f2", ext := "mp4", resolution := some "720p",
           filesize := none, format_note := some "" }] := by
  refine ⟨rfl, ?_⟩
  intro hpw
  rcases List.pairwise_cons.mp hpw with ⟨hh, _⟩
  exact hh _ (List.mem_singleton.mpr rfl) rfl

/-- C1, amended: the loop never replaces a kept entry and never inspects its
audio track — a later same-label descriptor is appended whenever it itself
carries audio, so duplicate labels can occur; when no descriptor carries an
audio track the first-seen-wins deduplication does hold and no two normalized
entries share a resolution label. -/
theorem c1_dedup_amended (raw : List RawFormat) (out : List VideoFormat)
    (haud : ∀ f ∈ raw, f.acodec = some "none")
    (h : normalize raw = Except.ok out) :
    List.Pairwise (fun a b : VideoFormat => a.resolution ≠ b.resolution) out := by
  rcases normalize_parts raw out h with ⟨fs, keyed, hb, ha, hout⟩
  have hfs : List.Pairwise (fun a b : VideoFormat => a.resolution ≠ b.resolution) fs :=
    buildFormats_labels_nodup raw [] [] fs haud
      (by intro v hv; cases hv) List.Pairwise.nil hb
  have hperm : List.Perm ((sortDesc keyed).map Prod.snd) fs := by
    have hp := (sortDesc_perm keyed).map Prod.snd
    rw [attachKeys_map_snd ha] at hp
    exact hp
  have hpairs : List.Pairwise (fun a b : VideoFormat => a.resolution ≠ b.resolution)
      ((sortDesc keyed).map Prod.snd) :=
    (List.Perm.pairwise_iff (fun hxy h => hxy h.symm) hperm).mpr hfs
  rw [hout]
  exact List.Pairwise.sublist (List.take_sublist 10 _) hpairs

/-- C1, witness of the amended theorem at a concrete audio-less input. -/
theorem c1_dedup_amended_witness :
    (∀ f ∈ [fmtBase, { fmtBase with format_id := some "f2", resolution := some "480p" }],
      f.acodec = some "none") ∧
    List.Pairwise (fun a b : VideoFormat => a.resolution ≠ b.resolution)
      [{ format_id := "f1", ext := "mp4", resolution := some "720p",
         filesize := none, format_note := some "" },
       { format_id := "f2", ext := "mp4", resolution := some "480p",
         filesize := none, format_note := some "" }] :=
  ⟨by decide,
    c1_dedup_amended
      [fmtBase, { fmtBase with format_id := some "f2", resolution := some "480p" }]
      _ (by decide) rfl⟩

/-- C3, counterexample: for the `WxH` label `1280x720` the claim demands rank
key 720 (the height) and demands that parse failures yield 0 without raising;
the code instead raises `ValueError` (`int("1280x720")`). -/
theorem c3_rank_key_cex :
    rankKey { format_id := "f", ext := "mp4", resolution := some "1280x720",
              filesize := none, format_note := some "" } = Except.error "ValueError" ∧
    rankKey { format_id := "f", ext := "mp4", resolution := some "1280x720",
              filesize := none, format_note := some "" } ≠ Except.ok 720 :=
  ⟨rfl, by decide⟩

/-- C3, amended: the rank key is the integer value of the label after deleting
every `p` character and substituting `0` for `unknown`: a `<digits>p` label
yields its leading integer and an absent label yields 0 (and `unknownp` yields
0), but a label whose cleaned form is not an integer literal — e.g. the
`WxH` form `1280x720` — raises `ValueError` instead of yielding 0. -/
theorem c3_rank_key_amended (f : VideoFormat) (ds : List Char)
    (h1 : ds ≠ []) (h2 : allDigits ds = true)
    (hres : f.resolution = some (String.mk (ds ++ ['p']))) :
    rankKey f = Except.ok ((digitsVal ds : Int)) ∧
    (∀ g : VideoFormat, g.resolution = none → rankKey g = Except.ok 0) ∧
    rankKey { format_id := "f", ext := "mp4", resolution := some "unknownp",
              filesize := none, format_note := some "" } = Except.ok 0 ∧
    rankKey { format_id := "f", ext := "mp4", resolution := some "1280x720",
              filesize := none, format_note := some "" } = Except.error "ValueError" := by
  refine ⟨rankKey_digits f ds h1 h2 hres, ?_, rfl, rfl⟩
  intro g hg
  simp [rankKey, hg]

/-- C3, witness of the amended theorem at the label `720p`. -/
theorem c3_rank_key_amended_witness :
    (['7', '2', '0'] : List Char) ≠ [] ∧ allDigits ['7', '2', '0'] = true ∧
    rankKey { format_id := "f", ext := "mp4", resolution := some "720p",
              filesize := none, format_note := some "" } = Except.ok 720 :=
  ⟨by decide, by decide,
    (c3_rank_key_amended
      { format_id := "f", ext := "mp4", resolution := some "720p",
        filesize := none, format_note := some "" }
      ['7', '2', '0'] (by decide) (by decide) rfl).1⟩

/-- C4, counterexample: normalization is not total — a descriptor whose
resolution label is `1280x720` makes the rank-key computation raise
`ValueError`, aborting the whole normalization instead of degrading to a
default. -/
theorem c4_totality_cex :
    normalize [{ fmtBase with resolution := some "1280x720" }] =
      Except.error "ValueError" := rfl

/-- C4, amended: normalization is pure and deterministic but not total — it
aborts with `KeyError` when a kept descriptor lacks `format_id` or `ext`, and
with `ValueError` when a kept descriptor's label cleans to a non-integer
string; it does complete on every input whose video descriptors carry both
identifiers and a parseable-or-empty label (in particular `unknownp` degrades
to rank 0 rather than erroring). -/
theorem c4_normalize_total_amended (raw : List RawFormat)
    (hwf : ∀ f ∈ raw, f.vcodec ≠ some "none" →
      f.format_id.isSome = true ∧ f.ext.isSome = true ∧
      rankParses (resolutionLabel f) = true) :
    ∃ out, normalize raw = Except.ok out := by
  rcases buildFormats_total raw [] []
      (fun f hf hv => ⟨(hwf f hf hv).1, (hwf f hf hv).2.1⟩) with ⟨fs, hfs⟩
  have hranks : ∀ v ∈ fs, ∃ k, rankKey v = Except.ok k := by
    intro v hv
    rcases buildFormats_resolution_from raw [] [] fs hfs v hv with hmem | ⟨f, hf, hfv, hres⟩
    · cases hmem
    · exact rankKey_ok_of_parses v (resolutionLabel f) hres (hwf f hf hfv).2.2
  rcases attachKeys_total hranks with ⟨keyed, hkeyed⟩
  exact ⟨((sortDesc keyed).map Prod.snd).take 10, by simp [normalize, hfs, hkeyed]⟩

/-- C4, witness of the amended theorem on an input containing an `unknownp`
label (no resolution and no height). -/
theorem c4_normalize_total_amended_witness :
    (∀ f ∈ [fmtBase, { fmtBase with format_id := some "f2", resolution := none }],
      f.vcodec ≠ some "none" →
      f.format_id.isSome = true ∧ f.ext.isSome = true ∧
      rankParses (resolutionLabel f) = true) ∧
    ∃ out, normalize [fmtBase, { fmtBase with format_id := some "f2", resolution := none }] =
      Except.ok out :=
  ⟨by decide,
    c4_normalize_total_amended
      [fmtBase, { fmtBase with format_id := some "f2", resolution := none }] (by decide)⟩

/-- C5, counterexample: on the spec's round-trip input the normalizer returns
three entries, not two — the audio-carrying 720p duplicate is appended next
to the audio-less first 720p entry rather than substituted for it. -/
theorem c5_roundtrip_cex :
    normalize [fmtBase,
               { fmtBase with format_id := some "f2", acodec := some "aac" },
               { fmtBase with format_id := some "f3", acodec := some "aac",
                              resolution := some "480p" }] =
      Except.ok [{ format_id := "f1", ext := "mp4", resolution := some "720p",
                   filesize := none, format_note := some "" },
                 { format_id := "f2", ext := "mp4", resolution := some "720p",
                   filesize := none, format_note := some "" },
                 { format_id := "f3", ext := "mp4", resolution := some "480p",
                   filesize := none, format_note := some "" }] ∧
    ¬ ((2 : Nat) = 3) :=
  ⟨rfl, by decide⟩

/-- C5, amended: on the round-trip input the normalizer returns three entries
in order — the 720p entry of the first (audio-less) descriptor, then the 720p
entry of the second (audio-carrying) descriptor, then the 480p entry. -/
theorem c5_roundtrip_amended :
    normalize [fmtBase,
               { fmtBase with format_id := some "f2", acodec := some "aac" },
               { fmtBase with format_id := some "f3", acodec := some "aac",
                              resolution := some "480p" }] =
      Except.ok [{ format_id := "f1", ext := "mp4", resolution := some "720p",
                   filesize := none, format_note := some "" },
                 { format_id := "f2", ext := "mp4", resolution := some "720p",
                   filesize := none, format_note := some "" },
                 { format_id := "f3", ext := "mp4", resolution := some "480p",
                   filesize := none, format_note := some "" }] := rfl

/-- C2: code bug — for a successful download with generated identifier `d`
whose extractor chooses extension `mp4`, the handler's response filename is
the literal template basename `d.%(ext)s` (because `download_video_sync`
returns the unexpanded `outtmpl` string), while the file actually
materialized on disk is named `d.mp4`; the response filename is not the final
filename discovered after materialization. -/
theorem c2_template_filename_bug :
    download_video "downloads" "d" (Except.ok ()) =
      HandlerResult.ok { download_id := "d", filename := "d.%(ext)s",
                         status := "completed" } ∧
    materializedName "d" "mp4" = "d.mp4" ∧
    ("d.%(ext)s" : String) ≠ "d.mp4" :=
  ⟨rfl, rfl, by decide⟩

/-- C6: for every raw descriptor list on which normalization succeeds, the
output is ordered descending by the derived rank key, and for each key value
the entries carrying it appear in the output in their original extractor
order (stability, stated as: the key-k entries of the output form a
sub-sequence of the key-k entries of the deduplicated pre-sort list). -/
theorem c6_sorted_stable (raw : List RawFormat) (out fs : List VideoFormat)
    (h : normalize raw = Except.ok out)
    (hb : buildFormats raw [] [] = Except.ok fs) :
    List.Pairwise (fun a b : VideoFormat => rankD b ≤ rankD a) out ∧
    ∀ k : Int, (out.filter (fun f => rankD f == k)).Sublist
      (fs.filter (fun f => rankD f == k)) := by
  rcases normalize_parts raw out h with ⟨fs', keyed, hb', ha, hout⟩
  rw [Except.ok.inj (hb'.symm.trans hb)] at ha
  have hkeyedrd : ∀ p ∈ keyed, rankD p.2 = p.1 := by
    intro p hp
    simp [rankD, attachKeys_mem_rank ha p hp]
  have hsortrd : ∀ p ∈ sortDesc keyed, rankD p.2 = p.1 :=
    fun p hp => hkeyedrd p ((sortDesc_perm keyed).mem_iff.mp hp)
  constructor
  · have hsorted : List.Pairwise (fun a b : Int × VideoFormat => b.1 ≤ a.1)
        (sortDesc keyed) := sortDesc_sorted keyed
    have hsorted' : List.Pairwise
        (fun a b : Int × VideoFormat => rankD b.2 ≤ rankD a.2) (sortDesc keyed) :=
      List.Pairwise.imp_of_mem
        (fun hma hmb hab => by rw [hsortrd _ hma, hsortrd _ hmb]; exact hab) hsorted
    have hmap : List.Pairwise (fun a b : VideoFormat => rankD b ≤ rankD a)
        ((sortDesc keyed).map Prod.snd) := List.pairwise_map.mpr hsorted'
    rw [hout]
    exact List.Pairwise.sublist (List.take_sublist 10 _) hmap
  · intro k
    have hsub : (out.filter (fun f => rankD f == k)).Sublist
        (((sortDesc keyed).map Prod.snd).filter (fun f => rankD f == k)) := by
      rw [hout]
      exact List.Sublist.filter _ (List.take_sublist 10 _)
    have hchain : ((sortDesc keyed).map Prod.snd).filter (fun f => rankD f == k) =
        fs.filter (fun f => rankD f == k) := by
      rw [filter_map_snd k (sortDesc keyed) hsortrd, filter_sortDesc k keyed,
        ← filter_map_snd k keyed hkeyedrd, attachKeys_map_snd ha]
    rw [hchain] at hsub
    exact hsub

/-- C6, witness at a concrete input with a 480p/1080p/480p shape (the two
480p entries tie on rank and keep their original order). -/
theorem c6_sorted_stable_witness :
    List.Pairwise (fun a b : VideoFormat => rankD b ≤ rankD a)
      [{ format_id := "f2", ext := "mp4", resolution := some "1080p",
         filesize := none, format_note := some "" },
       { format_id := "f1", ext := "mp4", resolution := some "480p",
         filesize := none, format_note := some "" },
       { format_id := "f3", ext := "mp4", resolution := some "480p",
         filesize := none, format_note := some "" }] ∧
    (List.filter (fun f => rankD f == 480)
      [{ format_id := "f2", ext := "mp4", resolution := some "1080p",
         filesize := none, format_note := some "" },
       { format_id := "f1", ext := "mp4", resolution := some "480p",
         filesize := none, format_note := some "" },
       { format_id := "f3", ext := "mp4", resolution := some "480p",
         filesize := none, format_note := some "" }]).Sublist
      (List.filter (fun f => rankD f == 480)
        [{ format_id := "f1", ext := "mp4", resolution := some "480p",
           filesize := none, format_note := some "" },
         { format_id := "f2", ext := "mp4", resolution := some "1080p",
           filesize := none, format_note := some "" },
         { format_id := "f3", ext := "mp4", resolution := some "480p",
           filesize := none, format_note := some "" }]) := by
  have h := c6_sorted_stable [{ fmtBase with resolution := some "480p" }, { fmtBase with format_id := some "f2", resolution := some "1080p" }, { fmtBase with format_id := some "f3", resolution := some "480p", acodec := some "aac" }] _ _ rfl rfl
  exact ⟨h.1, h.2 480⟩

/-- C7: for every raw descriptor list on which normalization succeeds, the
output length is at most 10 and at most the number of input descriptors
passing the video test, and the empty input yields the empty output. -/
theorem c7_length_bounds (raw : List RawFormat) (out : List VideoFormat)
    (h : normalize raw = Except.ok out) :
    out.length ≤ 10 ∧ out.length ≤ (raw.filter hasVideo).length ∧
    (raw = [] → out = []) := by
  rcases normalize_parts raw out h with ⟨fs, keyed, hb, ha, hout⟩
  have hkl : keyed.length = fs.length := by
    have hc := congrArg List.length (attachKeys_map_snd ha)
    simpa using hc
  have hsl : (sortDesc keyed).length = keyed.length := (sortDesc_perm keyed).length_eq
  have hfl : fs.length ≤ (raw.filter hasVideo).length := by
    have hbl := buildFormats_length raw [] [] fs hb
    simpa using hbl
  subst hout
  refine ⟨?_, ?_, ?_⟩
  · simp [List.length_take]
  · simp only [List.length_take, List.length_map, hsl, hkl]
    exact le_trans (min_le_right _ _) hfl
  · intro hraw
    subst hraw
    have hfs : ([] : List VideoFormat) = fs := Except.ok.inj hb
    subst hfs
    have hkeyed : ([] : List (Int × VideoFormat)) = keyed := Except.ok.inj ha
    subst hkeyed
    rfl

/-- C7, witness at a three-descriptor input (two of them video). -/
theorem c7_length_bounds_witness :
    ([{ format_id := "f1", ext := "mp4", resolution := some "720p",
        filesize := none, format_note := some "" },
      { format_id := "f3", ext := "mp4", resolution := some "480p",
        filesize := none, format_note := some "" }] : List VideoFormat).length ≤ 10 ∧
    ([{ format_id := "f1", ext := "mp4", resolution := some "720p",
        filesize := none, format_note := some "" },
      { format_id := "f3", ext := "mp4", resolution := some "480p",
        filesize := none, format_note := some "" }] : List VideoFormat).length ≤
      ([fmtBase, { fmtBase with format_id := some "f2", vcodec := some "none" },
        { fmtBase with format_id := some "f3", resolution := some "480p" }].filter
        hasVideo).length ∧
    ([fmtBase, { fmtBase with format_id := some "f2", vcodec := some "none" },
      { fmtBase with format_id := some "f3", resolution := some "480p" }] = [] →
      ([{ format_id := "f1", ext := "mp4", resolution := some "720p",
          filesize := none, format_note := some "" },
        { format_id := "f3", ext := "mp4", resolution := some "480p",
          filesize := none, format_note := some "" }] : List VideoFormat) = []) :=
  c7_length_bounds
    [fmtBase, { fmtBase with format_id := some "f2", vcodec := some "none" },
     { fmtBase with format_id := some "f3", resolution := some "480p" }]
    _ rfl

/-- C8: whenever the metadata extraction fails, the handler answers HTTP 400
and the response detail contains the underlying failure message as a
substring (it is the suffix of the wrapped message); the failure is neither
masked nor retried. -/
theorem c8_describe_failure_400 (msg : String) :
    get_video_info (Except.error msg) =
      HandlerResult.httpError 400 ("Failed to extract video info: " ++ msg) ∧
    ∃ pre post, "Failed to extract video info: " ++ msg = pre ++ msg ++ post :=
  ⟨rfl, ⟨"Failed to extract video info: ", "", by simp⟩⟩

/-- C8, witness at a concrete failure message. -/
theorem c8_describe_failure_400_witness :
    get_video_info (Except.error "boom") =
      HandlerResult.httpError 400 ("Failed to extract video info: " ++ "boom") ∧
    ∃ pre post, "Failed to extract video info: " ++ "boom" = pre ++ "boom" ++ post :=
  c8_describe_failure_400 "boom"

/-- C10, counterexample: the filename `../server.py` is accepted, and when a
file exists at the resolved location the handler serves it — yet the resolved
location `backend/server.py` lies outside the downloads directory
`backend/downloads` (its two leading segments differ from the downloads
directory), so a path-traversal filename escapes the downloads directory. -/
theorem c10_path_traversal_cex :
    get_video_file (fun p => p == ["backend", "server.py"]) "../server.py" =
      FileResult.serveFile ["backend", "downloads", "..", "server.py"] ∧
    normalizePath (joinPath downloadsDirSegs "../server.py") =
      ["backend", "server.py"] ∧
    (normalizePath (joinPath downloadsDirSegs "../server.py")).take
      downloadsDirSegs.length ≠ downloadsDirSegs :=
  ⟨rfl, rfl, by decide⟩

/-- C10, amended: the handler answers NotFound or streams the file at the
downloads directory joined with the request filename; for a filename with no
`..` segment and no leading slash the resolved path stays under the downloads
directory, but a `..` segment (e.g. `../server.py`) resolves outside it. -/
theorem c10_fetch_amended (fileAt : List String → Bool) (filename : String)
    (hdot : ".." ∉ splitSlash filename)
    (habs : ¬(filename.data.head? = some '/')) :
    get_video_file fileAt filename = FileResult.notFound ∨
    (get_video_file fileAt filename =
        FileResult.serveFile (downloadsDirSegs ++ splitSlash filename) ∧
      ∃ rest, normalizePath (downloadsDirSegs ++ splitSlash filename) =
        downloadsDirSegs ++ rest) := by
  have hjoin : joinPath downloadsDirSegs filename =
      downloadsDirSegs ++ splitSlash filename := by
    rw [joinPath, if_neg habs]
  by_cases hex : fileAt (normalizePath (joinPath downloadsDirSegs filename)) = true
  · right
    refine ⟨?_, ?_⟩
    · rw [get_video_file, if_pos hex, hjoin]
    · exact normalizePath_down_append (splitSlash filename) hdot
  · left
    rw [get_video_file, if_neg hex]

/-- C10, witness of the amended theorem at a plain filename. -/
theorem c10_fetch_amended_witness :
    (".." ∉ splitSlash "video.mp4") ∧
    ¬(("video.mp4" : String).data.head? = some '/') ∧
    (get_video_file (fun _ => true) "video.mp4" = FileResult.notFound ∨
      (get_video_file (fun _ => true) "video.mp4" =
          FileResult.serveFile (downloadsDirSegs ++ splitSlash "video.mp4") ∧
        ∃ rest, normalizePath (downloadsDirSegs ++ splitSlash "video.mp4") =
          downloadsDirSegs ++ rest)) :=
  ⟨by decide, by decide,
    c10_fetch_amended (fun _ => true) "video.mp4" (by decide) (by decide)⟩

end VidSaver
